import Mathlib

/-!
Verification of `src/tools/ckeywords.c` (camkes-tool).

The program filters a compile-time table of candidate C keywords
(the `keywords[]` array, whose entries are `category ? string : NULL`)
through the POSIX regex `^[a-zA-Z_][a-zA-Z0-9_]*` and renders the
survivors as a line-wrapped Python `frozenset` literal between a fixed
header and footer, written to stdout.

C strings are modelled as `List Char`, the keyword array as a
`List Candidate`, and stdout as the `out` field of the loop state,
threaded explicitly through the loop of `main` (lines 120-146).
-/

set_option autoImplicit false
set_option maxRecDepth 100000

abbrev Tok := List Char

abbrev Line := List Tok

/-- A candidate keyword: its text together with its applicability under the
fixed environment profile (the `KEY*` / `*SUPPORT` macros, lines 41-58).
In the C source this pair is resolved by the `KEYWORD_` macro. -/
structure Candidate where
  text : Tok
  applicable : Bool

/-- `KEYWORD_(string, category)` expands to `(category) ? string : NULL`,
the entry that actually appears in the `keywords[]` array (lines 66-68). -/
def keywordEntry (c : Candidate) : Option Tok :=
  if c.applicable then some c.text else none

/-- Character class `[a-zA-Z_]`, the first bracket of the regex (line 112). -/
def isIdentStart (c : Char) : Bool :=
  ('a' ≤ c && c ≤ 'z') || ('A' ≤ c && c ≤ 'Z') || c = '_'

/-- Character class `[a-zA-Z0-9_]`, the starred bracket of the regex. -/
def isIdentCont (c : Char) : Bool :=
  isIdentStart c || ('0' ≤ c && c ≤ '9')

/-- `regexec(&regex, s, 0, NULL, 0) != REG_NOMATCH` (line 127) for the
anchored pattern `^[a-zA-Z_][a-zA-Z0-9_]*`: a match is a decomposition
`s = c :: cs ++ rest` with `isIdentStart c` and every element of `cs`
satisfying `isIdentCont`.  Since the starred class may match the empty
list (`cs = []`, `rest` the whole tail), such a decomposition exists
exactly when `s` is nonempty and its head is in `[a-zA-Z_]`. -/
def identShapeMatch : Tok → Bool
  | [] => false
  | c :: _ => isIdentStart c

/-- `static const char *indent = "    ";` (line 81). -/
def indent : Tok := "    ".toList

/-- `static const unsigned wrap_at = 80;` (line 82). -/
def wrap_at : Nat := 80

/-- `static const char *header = ...` (lines 83-105), exactly the C string. -/
def header : String :=
  "#!/usr/bin/env python\n# -*- coding: utf-8 -*-\n\n#\n# Copyright 2015, NICTA\n#\n# This software may be distributed and modified according to the terms of\n# the BSD 2-Clause license. Note that NO WARRANTY is provided.\n# See \"LICENSE_BSD2.txt\" for details.\n#\n# @TAG(NICTA_BSD)\n#\n\n# Generated by ckeywords.c. Do not edit manually.\n\nfrom __future__ import absolute_import, division, print_function, \\\n    unicode_literals\nfrom camkes.internal.seven import cmp, filter, map, zip\n\n# A list of C keywords for the purpose of warning the user when a symbol in\n# their input specification is likely to cause compiler errors.\nC_KEYWORDS = frozenset([\n"

/-- `static const char *footer = "])\n";` (line 106). -/
def footer : String := "])\n"

/-- The ASCII single-quote character printed by `printf("'%s',", ...)`. -/
def squote : Char := Char.ofNat 39

/-- The token printed for one keyword at line 145: `'%s',`. -/
def quoteTok (w : Tok) : Tok :=
  squote :: (w ++ [squote, ','])

/-- The state of the loop in `main`: the characters written to stdout so
far, the `column` counter, the `newline` flag, and — as an observer of
line 145 — the list of keywords passed to the token `printf`, in order. -/
structure RState where
  out : Tok
  column : Nat
  newline : Bool
  emitted : List Tok

/-- State at line 119: nothing printed after the header, `column = 0`,
`newline = true`. -/
def initState : RState := ⟨[], 0, true, []⟩

/-- Lines 130-135: emit a newline and reset when
`column + len + 4 > wrap_at`. -/
def wrapPhase (st : RState) (len : Nat) : RState :=
  if st.column + len + 4 > wrap_at then
    { st with out := st.out ++ ['\n'], column := 0, newline := true }
  else st

/-- Lines 137-143: indentation at the start of a line, else one space. -/
def indentPhase (st : RState) : RState :=
  if st.newline then
    { st with out := st.out ++ indent, newline := false,
              column := st.column + indent.length }
  else { st with out := st.out ++ [' '] }

/-- Lines 130-146: the loop body for one keyword that survived both
filters — wrap check, indentation or space, then `printf("'%s',", ...)`
and `column += len + 4`. -/
def renderStep (st : RState) (w : Tok) : RState :=
  let st2 := indentPhase (wrapPhase st w.length)
  { st2 with out := st2.out ++ quoteTok w,
             column := st2.column + w.length + 4,
             emitted := st2.emitted ++ [w] }

/-- Lines 120-146: one iteration over `keywords[i]`: skip `NULL` entries
(line 123) and entries rejected by the regex (line 127), render the rest. -/
def loopStep (st : RState) (e : Option Tok) : RState :=
  match e with
  | none => st
  | some w => if identShapeMatch w then renderStep st w else st

/-- The whole loop of `main` over the keyword table. -/
def runLoop (table : List Candidate) : RState :=
  (table.map keywordEntry).foldl loopStep initState

/-- Everything `main` writes to stdout (lines 118-151): the header, the
loop output, then `printf("\n%s", footer)`. -/
def generate (table : List Candidate) : Tok :=
  header.toList ++ ((runLoop table).out ++ ('\n' :: footer.toList))

/-- `main` with the outcome of `regcomp` (lines 112-116) abstracted into a
boolean: on failure nothing has been printed to stdout (the `perror`
message goes to stderr) and `EXIT_FAILURE = 1` is returned; on success
the pass runs to completion and `EXIT_SUCCESS = 0` is returned
(line 153). -/
def mainResult (regcompOk : Bool) (table : List Candidate) : Nat × Tok :=
  if regcompOk then (0, generate table) else (1, [])

/-- The Accepted Keyword Set of the spec (sections 3 and 4.1, step 1):
applicable candidates whose text matches the identifier-shape pattern,
in table order. -/
def acceptedKeywords (table : List Candidate) : List Tok :=
  (table.filter (fun c => c.applicable && identShapeMatch c.text)).map Candidate.text

/-- Width contributed by a line of tokens under the spec's accounting
(section 4.1, step 2): the indentation, plus, for each token, its quoted
text, its comma and a separating space (`length + 4`).  The empty line —
before anything has been placed on it — has no indentation yet. -/
def lineWidth : Line → Nat
  | [] => 0
  | t :: ts => indent.length + (((t :: ts).map (fun x => x.length + 4)).sum)

/-- One step of the spec's greedy packing (section 4.1, step 2): the token
is appended to the current line exactly when adding it would not exceed
the wrap width; otherwise the current line is finished and a new line is
started with this token. -/
def wrapStep (p : List Line × Line) (w : Tok) : List Line × Line :=
  if lineWidth p.2 + w.length + 4 > wrap_at then (p.1 ++ [p.2], [w])
  else (p.1, p.2 ++ [w])

/-- All lines of a packing state: the finished lines plus the current one. -/
def finalLines (p : List Line × Line) : List Line := p.1 ++ [p.2]

/-- The greedy line packing of a keyword sequence. -/
def specLines (ws : List Tok) : List Line :=
  finalLines (ws.foldl wrapStep ([], []))

/-- Separators between the tokens of one line: each further token is
preceded by exactly one space. -/
def sepRest : List Tok → Tok
  | [] => []
  | t :: ts => ' ' :: (t ++ sepRest ts)

/-- The tokens of one line, separated by single spaces. -/
def joinTokens : List Tok → Tok
  | [] => []
  | t :: ts => t ++ sepRest ts

/-- A rendered line: the indentation, then the quoted comma-terminated
tokens separated by single spaces.  A line with no tokens is empty. -/
def renderLine : Line → Tok
  | [] => []
  | t :: ts => indent ++ joinTokens ((t :: ts).map quoteTok)

/-- Separators between lines: each further line is preceded by a newline. -/
def joinRest : List Tok → Tok
  | [] => []
  | l :: ls => '\n' :: (l ++ joinRest ls)

/-- A list of lines joined by newlines (no trailing newline). -/
def joinLines : List Tok → Tok
  | [] => []
  | l :: ls => l ++ joinRest ls

/-- The spec-side rendering of the accepted keywords (section 4.1, step 2,
without the header and footer). -/
def specRender (ws : List Tok) : Tok :=
  joinLines ((specLines ws).map renderLine)

/-- Split a character stream into its lines at `'\n'`. -/
def splitNl : Tok → List Tok
  | [] => [[]]
  | c :: cs =>
      if c = '\n' then [] :: splitNl cs
      else
        match splitNl cs with
        | [] => [[c]]
        | l :: ls => (c :: l) :: ls

/-- The coupling between the state of the C loop and the spec's packing
state: the printed characters are the join of the rendered lines, the
`column` counter is the width of the current line, and the `newline` flag
is set exactly before the first token (when both the finished lines and
the current line are empty, which also only happens together). -/
def RInv (st : RState) (p : List Line × Line) : Prop :=
  st.out = joinLines ((finalLines p).map renderLine) ∧
  st.column = lineWidth p.2 ∧
  (st.newline = true ↔ (p.1 = [] ∧ p.2 = [])) ∧
  (p.2 = [] → p.1 = [])

/-- The scenario table of spec section 8. -/
def sampleTable : List Candidate :=
  [⟨"int".toList, true⟩, ⟨"__attribute__".toList, true⟩,
   ⟨"restrict".toList, false⟩, ⟨"123bad".toList, true⟩]

/-- A 74-character identifier-shaped keyword: its rendered line is
`4 + 74 + 3 = 81` characters long. -/
def longWord74 : Tok := List.replicate 74 'a'

/-- A 77-character keyword: the smallest length with `len + 4 > 80`. -/
def longWord77 : Tok := List.replicate 77 'a'

/-- A 78-character keyword: its quoted token alone is 81 characters. -/
def longWord78 : Tok := List.replicate 78 'a'

def table74 : List Candidate := [⟨longWord74, true⟩]

def table77 : List Candidate := [⟨longWord77, true⟩]

def table78 : List Candidate := [⟨longWord78, true⟩]

/-- The header without its final newline. -/
def headerHd : Tok := header.toList.dropLast

theorem indent_length : indent.length = 4 := rfl

theorem quoteTok_length (w : Tok) : (quoteTok w).length = w.length + 3 := by
  simp [quoteTok]

theorem header_hd_newline : header.toList = headerHd ++ ['\n'] := by decide

theorem header_lines_bound : ∀ l ∈ splitNl header.toList, l.length ≤ 80 := by decide

theorem renderStep_emitted (st : RState) (w : Tok) :
    (renderStep st w).emitted = st.emitted ++ [w] := by
  simp only [renderStep, indentPhase, wrapPhase]
  split <;> split <;> rfl

theorem foldl_renderStep_emitted (ws : List Tok) :
    ∀ st : RState, (ws.foldl renderStep st).emitted = st.emitted ++ ws := by
  induction ws with
  | nil => intro st; simp
  | cons w rest ih =>
    intro st
    rw [List.foldl_cons, ih, renderStep_emitted]
    simp

theorem runLoop_eq_renderFold (table : List Candidate) :
    ∀ st : RState,
      (table.map keywordEntry).foldl loopStep st =
        (acceptedKeywords table).foldl renderStep st := by
  induction table with
  | nil => intro st; simp [acceptedKeywords]
  | cons c rest ih =>
    intro st
    simp only [List.map_cons, List.foldl_cons, keywordEntry, acceptedKeywords,
      List.filter_cons]
    by_cases ha : c.applicable = true
    · by_cases hm : identShapeMatch c.text = true
      · simp only [ha, hm, if_pos, Bool.and_self, loopStep, if_true]
        exact ih (renderStep st c.text)
      · simp only [ha, hm, if_pos, loopStep]
        simp only [Bool.and_false, Bool.false_eq_true, if_false, if_neg hm]
        exact ih st
    · simp only [Bool.not_eq_true] at ha
      simp only [ha, loopStep, Bool.false_and, Bool.false_eq_true, if_false]
      exact ih st

theorem sepRest_append (a b : List Tok) :
    sepRest (a ++ b) = sepRest a ++ sepRest b := by
  induction a with
  | nil => simp [sepRest]
  | cons t ts ih => simp [sepRest, ih]

theorem joinRest_append (a b : List Tok) :
    joinRest (a ++ b) = joinRest a ++ joinRest b := by
  induction a with
  | nil => simp [joinRest]
  | cons l ls ih => simp [joinRest, ih]

theorem joinLines_concat_of_ne (L : List Tok) (a : Tok) (h : L ≠ []) :
    joinLines (L ++ [a]) = joinLines L ++ ('\n' :: a) := by
  cases L with
  | nil => exact absurd rfl h
  | cons x xs => simp [joinLines, joinRest_append, joinRest]

theorem joinLines_last_append (L : List Tok) (a b : Tok) :
    joinLines (L ++ [a ++ b]) = joinLines (L ++ [a]) ++ b := by
  cases L with
  | nil => simp [joinLines, joinRest]
  | cons x xs => simp [joinLines, joinRest_append, joinRest]

theorem joinLines_middle (M : List Tok) (x : Tok) (N : List Tok) (hM : M ≠ []) :
    joinLines (M ++ x :: N) = joinLines M ++ ('\n' :: (x ++ joinRest N)) := by
  cases M with
  | nil => exact absurd rfl hM
  | cons m ms => simp [joinLines, joinRest_append, joinRest]

theorem lineWidth_concat (l : Line) (w : Tok) (h : l ≠ []) :
    lineWidth (l ++ [w]) = lineWidth l + (w.length + 4) := by
  cases l with
  | nil => exact absurd rfl h
  | cons t ts =>
    simp [lineWidth, List.sum_append]
    omega

theorem lineWidth_singleton (w : Tok) :
    lineWidth [w] = indent.length + (w.length + 4) := by
  simp [lineWidth]

theorem renderLine_singleton (w : Tok) :
    renderLine [w] = indent ++ quoteTok w := by
  simp [renderLine, joinTokens, sepRest]

theorem renderLine_concat (l : Line) (w : Tok) (h : l ≠ []) :
    renderLine (l ++ [w]) = renderLine l ++ (' ' :: quoteTok w) := by
  cases l with
  | nil => exact absurd rfl h
  | cons t ts => simp [renderLine, joinTokens, sepRest_append, sepRest]

theorem wrapPhase_pos (x : RState) (len : Nat) (h : x.column + len + 4 > wrap_at) :
    wrapPhase x len =
      { x with out := x.out ++ ['\n'], column := 0, newline := true } := by
  simp [wrapPhase, h]

theorem wrapPhase_neg (x : RState) (len : Nat) (h : ¬ (x.column + len + 4 > wrap_at)) :
    wrapPhase x len = x := by
  simp [wrapPhase, h]

theorem indentPhase_true (x : RState) (h : x.newline = true) :
    indentPhase x =
      { x with out := x.out ++ indent, newline := false,
               column := x.column + indent.length } := by
  simp [indentPhase, h]

theorem indentPhase_false (x : RState) (h : x.newline = false) :
    indentPhase x = { x with out := x.out ++ [' '] } := by
  simp [indentPhase, h]

theorem renderStep_eq (st : RState) (w : Tok) :
    renderStep st w =
      { indentPhase (wrapPhase st w.length) with
        out := (indentPhase (wrapPhase st w.length)).out ++ quoteTok w,
        column := (indentPhase (wrapPhase st w.length)).column + w.length + 4,
        emitted := (indentPhase (wrapPhase st w.length)).emitted ++ [w] } := rfl

theorem RInv_step (st : RState) (p : List Line × Line) (w : Tok) (h : RInv st p) :
    RInv (renderStep st w) (wrapStep p w) := by
  obtain ⟨done, cur⟩ := p
  obtain ⟨hout, hcol, hnl, hemp⟩ := h
  simp only [finalLines] at hout
  dsimp only at hout hcol hnl hemp
  by_cases hw : lineWidth cur + w.length + 4 > wrap_at
  · have hcond : st.column + w.length + 4 > wrap_at := by rw [hcol]; exact hw
    have hws : wrapStep (done, cur) w = (done ++ [cur], [w]) := by
      simp [wrapStep, hw]
    rw [hws, renderStep_eq, wrapPhase_pos st w.length hcond, indentPhase_true _ rfl]
    refine ⟨?_, ?_, ?_, ?_⟩
    · show st.out ++ ['\n'] ++ indent ++ quoteTok w = _
      simp only [finalLines, List.map_append, List.map_cons, List.map_nil]
      rw [joinLines_concat_of_ne _ _ (by simp), renderLine_singleton]
      simp only [List.map_append, List.map_cons, List.map_nil] at hout
      rw [← hout]
      simp [List.append_assoc]
    · show 0 + indent.length + w.length + 4 = _
      dsimp only
      rw [lineWidth_singleton]
      omega
    · show (false = true ↔ _)
      simp
    · intro hcontra
      exact absurd hcontra (by simp)
  · have hcond : ¬ (st.column + w.length + 4 > wrap_at) := by rw [hcol]; exact hw
    have hws : wrapStep (done, cur) w = (done, cur ++ [w]) := by
      simp [wrapStep, hw]
    rw [hws, renderStep_eq, wrapPhase_neg st w.length hcond]
    cases cur with
    | nil =>
      have hd : done = [] := hemp rfl
      subst hd
      have hn : st.newline = true := hnl.mpr ⟨rfl, rfl⟩
      rw [indentPhase_true st hn]
      have hout0 : st.out = [] := by
        simpa [joinLines, joinRest, renderLine] using hout
      have hcol0 : st.column = 0 := by simpa [lineWidth] using hcol
      refine ⟨?_, ?_, ?_, ?_⟩
      · show st.out ++ indent ++ quoteTok w = _
        simp [finalLines, hout0, renderLine_singleton, joinLines, joinRest]
      · show st.column + indent.length + w.length + 4 = _
        dsimp only
        simp only [List.nil_append]
        rw [hcol0, lineWidth_singleton]
        omega
      · show (false = true ↔ _)
        simp
      · intro hcontra
        exact absurd hcontra (by simp)
    | cons t ts =>
      have hn : st.newline = false := by
        cases hb : st.newline
        · rfl
        · exact absurd (hnl.mp hb).2 (by simp)
      rw [indentPhase_false st hn]
      refine ⟨?_, ?_, ?_, ?_⟩
      · show st.out ++ [' '] ++ quoteTok w = _
        simp only [finalLines]
        have h1 : (done ++ [(t :: ts) ++ [w]]).map renderLine
            = done.map renderLine ++ [renderLine (t :: ts) ++ (' ' :: quoteTok w)] := by
          rw [← renderLine_concat (t :: ts) w (by simp)]
          simp
        rw [h1, joinLines_last_append]
        simp only [List.map_append, List.map_cons, List.map_nil] at hout
        rw [← hout]
        simp [List.append_assoc]
      · show st.column + w.length + 4 = _
        dsimp only
        rw [lineWidth_concat (t :: ts) w (by simp), ← hcol]
        omega
      · simp [hn]
      · intro hcontra
        exact absurd hcontra (by simp)

theorem RInv_fold (ws : List Tok) :
    ∀ (st : RState) (p : List Line × Line), RInv st p →
      RInv (ws.foldl renderStep st) (ws.foldl wrapStep p) := by
  induction ws with
  | nil => intro st p h; exact h
  | cons w rest ih =>
    intro st p h
    rw [List.foldl_cons, List.foldl_cons]
    exact ih _ _ (RInv_step st p w h)

theorem RInv_init : RInv initState ([], []) := by
  refine ⟨?_, ?_, ?_, ?_⟩ <;>
    simp [initState, finalLines, joinLines, joinRest, renderLine, lineWidth]

/-- The output of the C render loop is exactly the spec-side greedy
rendering. -/
theorem render_out_eq (ws : List Tok) :
    (ws.foldl renderStep initState).out = specRender ws := by
  have h := (RInv_fold ws initState ([], []) RInv_init).1
  simpa [specRender, specLines] using h

theorem runLoop_out (table : List Candidate) :
    (runLoop table).out = specRender (acceptedKeywords table) := by
  rw [runLoop, runLoop_eq_renderFold, render_out_eq]

theorem generate_eq (table : List Candidate) :
    generate table =
      header.toList ++ (specRender (acceptedKeywords table) ++ ('\n' :: footer.toList)) := by
  rw [generate, runLoop_out]

theorem wrap_fold_width (ws : List Tok) :
    ∀ p : List Line × Line, (∀ w ∈ ws, w.length ≤ 73) →
      (∀ l ∈ p.1, lineWidth l ≤ 81) → lineWidth p.2 ≤ 81 →
      (∀ l ∈ (ws.foldl wrapStep p).1, lineWidth l ≤ 81) ∧
        lineWidth (ws.foldl wrapStep p).2 ≤ 81 := by
  induction ws with
  | nil => intro p _ h1 h2; exact ⟨h1, h2⟩
  | cons w rest ih =>
    intro p hws h1 h2
    have hw73 : w.length ≤ 73 := hws w (by simp)
    have hrest : ∀ x ∈ rest, x.length ≤ 73 := fun x hx => hws x (by simp [hx])
    have hsingle : lineWidth [w] ≤ 81 := by
      rw [lineWidth_singleton, indent_length]; omega
    rw [List.foldl_cons]
    by_cases hc : lineWidth p.2 + w.length + 4 > wrap_at
    · have hstep : wrapStep p w = (p.1 ++ [p.2], [w]) := by simp [wrapStep, hc]
      rw [hstep]
      refine ih _ hrest ?_ hsingle
      intro l hl
      rcases List.mem_append.mp hl with h | h
      · exact h1 l h
      · simp only [List.mem_singleton] at h
        exact h ▸ h2
    · have hstep : wrapStep p w = (p.1, p.2 ++ [w]) := by simp [wrapStep, hc]
      rw [hstep]
      refine ih _ hrest h1 ?_
      cases hp : p.2 with
      | nil => simpa using hsingle
      | cons t ts =>
        rw [lineWidth_concat _ _ (by simp)]
        rw [hp] at hc
        simp only [wrap_at, gt_iff_lt, not_lt] at hc
        rw [← hp, hp]
        omega

theorem specLines_width (ws : List Tok) (h : ∀ w ∈ ws, w.length ≤ 73) :
    ∀ l ∈ specLines ws, lineWidth l ≤ 81 := by
  have hw := wrap_fold_width ws ([], []) h (by simp) (by simp [lineWidth])
  intro l hl
  simp only [specLines, finalLines] at hl
  rcases List.mem_append.mp hl with h1 | h2
  · exact hw.1 l h1
  · simp only [List.mem_singleton] at h2
    exact h2 ▸ hw.2

theorem sepRest_length (ts : List Tok) :
    (sepRest ts).length = (ts.map (fun t => t.length + 1)).sum := by
  induction ts with
  | nil => simp [sepRest]
  | cons t ts ih => simp [sepRest, ih]; omega

theorem quoted_sum_eq (ts : List Tok) :
    ((ts.map quoteTok).map (fun q => q.length + 1)).sum
      = (ts.map (fun x => x.length + 4)).sum := by
  induction ts with
  | nil => rfl
  | cons a as ih =>
    simp only [List.map_cons, List.sum_cons, quoteTok_length, ih]

theorem renderLine_length_le (l : Line) (h : lineWidth l ≤ 81) :
    (renderLine l).length ≤ 80 := by
  cases l with
  | nil => simp [renderLine]
  | cons t ts =>
    simp only [renderLine, joinTokens, List.map_cons, List.length_append,
      indent_length, sepRest_length, quoted_sum_eq, quoteTok_length]
    simp only [lineWidth, indent_length, List.map_cons, List.sum_cons] at h
    omega

theorem splitNl_ne_nil (s : Tok) : splitNl s ≠ [] := by
  induction s with
  | nil => simp [splitNl]
  | cons c cs ih =>
    simp only [splitNl]
    split
    · simp
    · split
      · simp
      · simp

theorem splitNl_append_newline (a b : Tok) :
    splitNl (a ++ '\n' :: b) = splitNl a ++ splitNl b := by
  induction a with
  | nil => simp [splitNl]
  | cons c cs ih =>
    by_cases hc : c = '\n'
    · subst hc
      simp [splitNl, ih]
    · simp only [List.cons_append, splitNl, if_neg hc, List.append_eq]
      rw [ih]
      cases h : splitNl cs with
      | nil => exact absurd h (splitNl_ne_nil cs)
      | cons l ls => simp

theorem mem_splitNl_length (s : Tok) : ∀ l ∈ splitNl s, l.length ≤ s.length := by
  induction s with
  | nil =>
    intro l hl
    simp only [splitNl, List.mem_singleton] at hl
    simp [hl]
  | cons c cs ih =>
    intro l hl
    by_cases hc : c = '\n'
    · subst hc
      have hl2 : l = [] ∨ l ∈ splitNl cs := by simpa [splitNl] using hl
      rcases hl2 with rfl | h
      · simp
      · have := ih l h
        simp only [List.length_cons]
        omega
    · simp only [splitNl, if_neg hc] at hl
      cases h : splitNl cs with
      | nil => exact absurd h (splitNl_ne_nil cs)
      | cons x xs =>
        rw [h] at hl
        simp only [List.mem_cons] at hl
        rcases hl with rfl | hmem
        · have hx := ih x (by rw [h]; simp)
          simp only [List.length_cons]
          omega
        · have := ih l (by rw [h]; simp [hmem])
          simp only [List.length_cons]
          omega

theorem splitNl_joinLines_bound (L : List Tok) (N : Nat)
    (h : ∀ p ∈ L, p.length ≤ N) : ∀ l ∈ splitNl (joinLines L), l.length ≤ N := by
  induction L with
  | nil =>
    intro l hl
    simp only [joinLines, splitNl, List.mem_singleton] at hl
    simp [hl]
  | cons p ps ih =>
    intro l hl
    cases ps with
    | nil =>
      simp only [joinLines, joinRest, List.append_nil] at hl
      exact le_trans (mem_splitNl_length p l hl) (h p (by simp))
    | cons q qs =>
      have hjl : joinLines (p :: q :: qs) = p ++ '\n' :: joinLines (q :: qs) := by
        simp [joinLines, joinRest]
      rw [hjl, splitNl_append_newline] at hl
      rcases List.mem_append.mp hl with h1 | h2
      · exact le_trans (mem_splitNl_length p l h1) (h p (by simp))
      · exact ih (fun x hx => h x (by simp [hx])) l h2

theorem wrap_fold_shift (ws : List Tok) :
    ∀ (done : List Line) (cur : Line),
      ws.foldl wrapStep (done, cur) =
        (done ++ (ws.foldl wrapStep ([], cur)).1, (ws.foldl wrapStep ([], cur)).2) := by
  induction ws with
  | nil => intro done cur; simp
  | cons w rest ih =>
    intro done cur
    rw [List.foldl_cons, List.foldl_cons]
    by_cases hc : lineWidth cur + w.length + 4 > wrap_at
    · have h1 : wrapStep (done, cur) w = (done ++ [cur], [w]) := by simp [wrapStep, hc]
      have h2 : wrapStep ([], cur) w = ([cur], [w]) := by simp [wrapStep, hc]
      rw [h1, h2, ih (done ++ [cur]) [w], ih [cur] [w]]
      simp
    · have h1 : wrapStep (done, cur) w = (done, cur ++ [w]) := by simp [wrapStep, hc]
      have h2 : wrapStep ([], cur) w = ([], cur ++ [w]) := by simp [wrapStep, hc]
      rw [h1, h2]
      exact ih done (cur ++ [w])

theorem heavy_cur_head (ws : List Tok) (cur : Line) (h : 81 ≤ lineWidth cur) :
    ∃ M, finalLines (ws.foldl wrapStep ([], cur)) = cur :: M := by
  cases ws with
  | nil => exact ⟨[], rfl⟩
  | cons w rest =>
    rw [List.foldl_cons]
    have h2 : wrapStep ([], cur) w = ([cur], [w]) := by
      have : lineWidth cur + w.length + 4 > wrap_at := by
        simp only [wrap_at]; omega
      simp [wrapStep, this]
    rw [h2, wrap_fold_shift rest [cur] [w]]
    exact ⟨(rest.foldl wrapStep ([], [w])).1 ++ [(rest.foldl wrapStep ([], [w])).2],
      by simp [finalLines]⟩

theorem long_token_line (ws : List Tok) :
    ∀ (done : List Line) (cur : Line) (w : Tok), w ∈ ws → 78 ≤ w.length →
      ∃ L1 L2, finalLines (ws.foldl wrapStep (done, cur)) = L1 ++ ([w] :: L2) ∧
        L1 ≠ [] := by
  induction ws with
  | nil => intro done cur w hmem; exact absurd hmem (by simp)
  | cons x rest ih =>
    intro done cur w hmem hlen
    rw [List.foldl_cons]
    rcases List.mem_cons.mp hmem with rfl | hmem2
    · have hc : wrapStep (done, cur) w = (done ++ [cur], [w]) := by
        have : lineWidth cur + w.length + 4 > wrap_at := by
          simp only [wrap_at]; omega
        simp [wrapStep, this]
      rw [hc, wrap_fold_shift rest (done ++ [cur]) [w]]
      obtain ⟨M, hM⟩ := heavy_cur_head rest [w]
        (by rw [lineWidth_singleton, indent_length]; omega)
      refine ⟨done ++ [cur], M, ?_, by simp⟩
      simp only [finalLines] at hM ⊢
      rw [List.append_assoc, hM]
    · have := ih (wrapStep (done, cur) x).1 (wrapStep (done, cur) x).2 w hmem2 hlen
      simpa using this

theorem specLines_long (ws : List Tok) (w : Tok) (hmem : w ∈ ws)
    (hlen : 78 ≤ w.length) :
    ∃ L1 L2, specLines ws = L1 ++ ([w] :: L2) ∧ L1 ≠ [] := by
  have := long_token_line ws [] [] w hmem hlen
  simpa [specLines] using this

theorem joinRest_mem (l : Tok) (L : List Tok) (h : l ∈ L) :
    ∃ A B, joinRest L = A ++ (l ++ B) := by
  induction L with
  | nil => exact absurd h (by simp)
  | cons x xs ih =>
    rcases List.mem_cons.mp h with rfl | h2
    · exact ⟨['\n'], joinRest xs, by simp [joinRest]⟩
    · obtain ⟨A, B, hAB⟩ := ih h2
      exact ⟨'\n' :: (x ++ A), B, by simp [joinRest, hAB]⟩

theorem joinLines_mem (l : Tok) (L : List Tok) (h : l ∈ L) :
    ∃ A B, joinLines L = A ++ (l ++ B) := by
  cases L with
  | nil => exact absurd h (by simp)
  | cons x xs =>
    rcases List.mem_cons.mp h with rfl | h2
    · exact ⟨[], joinRest xs, by simp [joinLines]⟩
    · obtain ⟨A, B, hAB⟩ := joinRest_mem l xs h2
      exact ⟨x ++ A, B, by simp [joinLines, hAB]⟩

theorem sepRest_mem (t : Tok) (ts : List Tok) (h : t ∈ ts) :
    ∃ A B, sepRest ts = A ++ (t ++ B) := by
  induction ts with
  | nil => exact absurd h (by simp)
  | cons x xs ih =>
    rcases List.mem_cons.mp h with rfl | h2
    · exact ⟨[' '], sepRest xs, by simp [sepRest]⟩
    · obtain ⟨A, B, hAB⟩ := ih h2
      exact ⟨' ' :: (x ++ A), B, by simp [sepRest, hAB]⟩

theorem joinTokens_mem (t : Tok) (ts : List Tok) (h : t ∈ ts) :
    ∃ A B, joinTokens ts = A ++ (t ++ B) := by
  cases ts with
  | nil => exact absurd h (by simp)
  | cons x xs =>
    rcases List.mem_cons.mp h with rfl | h2
    · exact ⟨[], sepRest xs, by simp [joinTokens]⟩
    · obtain ⟨A, B, hAB⟩ := sepRest_mem t xs h2
      exact ⟨x ++ A, B, by simp [joinTokens, hAB]⟩

theorem wrap_fold_join (ws : List Tok) :
    ∀ p : List Line × Line,
      ((ws.foldl wrapStep p).1).flatten ++ (ws.foldl wrapStep p).2 =
        (p.1.flatten ++ p.2) ++ ws := by
  induction ws with
  | nil => intro p; simp
  | cons w rest ih =>
    intro p
    rw [List.foldl_cons]
    by_cases hc : lineWidth p.2 + w.length + 4 > wrap_at
    · have h1 : wrapStep p w = (p.1 ++ [p.2], [w]) := by simp [wrapStep, hc]
      rw [h1, ih]
      simp
    · have h1 : wrapStep p w = (p.1, p.2 ++ [w]) := by simp [wrapStep, hc]
      rw [h1, ih]
      simp

theorem specLines_join (ws : List Tok) : (specLines ws).flatten = ws := by
  have h := wrap_fold_join ws ([], [])
  simp only [List.flatten_nil, List.nil_append, List.append_nil] at h
  simp [specLines, finalLines, List.flatten_append, h]

/-- Claim C1: a candidate's text is emitted into the accepted output exactly
when it is applicable (non-NULL entry) and its text matches the
identifier-shape pattern anchored at the start of the string, and the
accepted texts appear in the same relative order as in the input table. -/
theorem claim_C1_accepted_filter (table : List Candidate) :
    (runLoop table).emitted =
      (table.filter (fun c => c.applicable && identShapeMatch c.text)).map Candidate.text := by
  rw [runLoop, runLoop_eq_renderFold, foldl_renderStep_emitted]
  simp [initState, acceptedKeywords]

/-- Claim C2: for every sequence of accepted keywords, the characters the C
loop prints are exactly the spec-side greedy packing: a token joins the
current line exactly when its quoted text plus comma and separating space,
together with the line's existing width (indentation included), stay within
the wrap width of 80; otherwise a new line is started with the 4-space
indentation, and the first token of the whole list and of each line is
preceded by the indentation rather than a space. -/
theorem claim_C2_greedy_packing (ws : List Tok) :
    (ws.foldl renderStep initState).out = specRender ws :=
  render_out_eq ws

/-- Claim C3, counterexample: a single applicable, identifier-shaped
74-character keyword yields the line `    'aaa…a',` of 81 characters, so
the claim "no line of the rendered output exceeds 80 characters" is false
as stated. -/
theorem claim_C3_counterexample :
    ¬ (∀ l ∈ splitNl (generate table74), l.length ≤ 80) := by decide

/-- Claim C3, amended: no line of the rendered output exceeds 80 characters
provided every accepted keyword is at most 73 characters long (a longer
keyword is placed on a line of its own whose length `len + 7` may exceed
the wrap width). -/
theorem claim_C3_line_bound (table : List Candidate)
    (h : ∀ w ∈ acceptedKeywords table, w.length ≤ 73) :
    ∀ l ∈ splitNl (generate table), l.length ≤ 80 := by
  intro l hl
  have hg : generate table =
      headerHd ++ '\n' :: (specRender (acceptedKeywords table) ++ '\n' :: footer.toList) := by
    rw [generate_eq, header_hd_newline]
    simp [List.append_assoc]
  rw [hg, splitNl_append_newline] at hl
  rcases List.mem_append.mp hl with h1 | h2
  · have hmem : l ∈ splitNl header.toList := by
      rw [header_hd_newline, splitNl_append_newline]
      exact List.mem_append.mpr (Or.inl h1)
    exact header_lines_bound l hmem
  · rw [splitNl_append_newline] at h2
    rcases List.mem_append.mp h2 with h3 | h4
    · have hw := specLines_width _ h
      have hb : ∀ p ∈ (specLines (acceptedKeywords table)).map renderLine,
          p.length ≤ 80 := by
        intro p hp
        obtain ⟨ln, hln, rfl⟩ := List.mem_map.mp hp
        exact renderLine_length_le ln (hw ln hln)
      simp only [specRender] at h3
      exact splitNl_joinLines_bound _ 80 hb l h3
    · have hf : ∀ x ∈ splitNl footer.toList, x.length ≤ 80 := by decide
      exact hf l h4

theorem claim_C3_line_bound_witness :
    (∀ w ∈ acceptedKeywords sampleTable, w.length ≤ 73) ∧
      (∀ l ∈ splitNl (generate sampleTable), l.length ≤ 80) :=
  ⟨by decide, claim_C3_line_bound sampleTable (by decide)⟩

/-- Claim C4: on the scenario table, the Accepted Keyword Set is exactly
`int` and `__attribute__`; `restrict` is excluded as inapplicable and
`123bad` as non-identifier-shaped. -/
theorem claim_C4_scenario :
    acceptedKeywords sampleTable = ["int".toList, "__attribute__".toList] := by decide

/-- Claim C5, counterexample: on the empty table the output is not the
header immediately followed by the footer — the loop prints nothing, but
`printf("\n%s", footer)` still contributes a newline between them. -/
theorem claim_C5_counterexample :
    generate [] ≠ header.toList ++ footer.toList := by decide

/-- Claim C5, amended: on the empty table the output is exactly the header,
one extra newline (an empty line), then the footer, with no keyword lines. -/
theorem claim_C5_empty_table :
    generate [] = header.toList ++ ('\n' :: footer.toList) := rfl

/-- Claim C6: every accepted keyword whose quoted token is longer than the
wrap width still appears in the output unsplit, on a line of its own: in
the character stream it is immediately preceded by a newline and the
indentation and immediately followed by a newline. -/
theorem claim_C6_long_token (table : List Candidate) (w : Tok)
    (hmem : w ∈ acceptedKeywords table) (hlen : 80 < (quoteTok w).length) :
    ∃ A B, generate table = A ++ ('\n' :: (indent ++ (quoteTok w ++ ('\n' :: B)))) := by
  have hlen2 : 78 ≤ w.length := by
    rw [quoteTok_length] at hlen; omega
  obtain ⟨L1, L2, hL, hL1⟩ := specLines_long (acceptedKeywords table) w hmem hlen2
  have hmap : (specLines (acceptedKeywords table)).map renderLine
      = L1.map renderLine ++ ((indent ++ quoteTok w) :: L2.map renderLine) := by
    rw [hL]
    simp [renderLine_singleton]
  have hio := joinLines_middle (L1.map renderLine) (indent ++ quoteTok w)
      (L2.map renderLine) (by simpa using hL1)
  rw [generate_eq]
  simp only [specRender, hmap, hio]
  cases L2 with
  | nil =>
    refine ⟨header.toList ++ joinLines (L1.map renderLine), footer.toList, ?_⟩
    simp [joinRest, List.append_assoc]
  | cons y ys =>
    refine ⟨header.toList ++ joinLines (L1.map renderLine),
      (renderLine y ++ joinRest (ys.map renderLine)) ++ ('\n' :: footer.toList), ?_⟩
    simp [joinRest, List.append_assoc]

theorem claim_C6_long_token_witness :
    (longWord78 ∈ acceptedKeywords table78) ∧ 80 < (quoteTok longWord78).length ∧
      (∃ A B, generate table78 =
        A ++ ('\n' :: (indent ++ (quoteTok longWord78 ++ ('\n' :: B))))) :=
  ⟨by decide, by decide,
    claim_C6_long_token table78 longWord78 (by decide) (by decide)⟩

/-- Claim C7: the program exits with the failure status exactly when the
regex fails to compile; otherwise — whatever the table contains — the pass
completes, filtered-out entries are not errors, and the exit status is
`EXIT_SUCCESS = 0`. -/
theorem claim_C7_exit_codes (table : List Candidate) :
    mainResult true table = (0, generate table) ∧
      mainResult false table = (1, ([] : Tok)) ∧
      ∀ ok : Bool, ((mainResult ok table).1 = 0 ↔ ok = true) := by
  refine ⟨rfl, rfl, ?_⟩
  intro ok
  cases ok <;> simp [mainResult]

/-- Claim C8: the output is a deterministic function of the input table (with
applicability under the fixed profile already resolved into each entry):
equal tables give byte-identical output, with the same keyword order and
the same wrapping. -/
theorem claim_C8_deterministic (t1 t2 : List Candidate) (h : t1 = t2) :
    generate t1 = generate t2 := by
  rw [h]

theorem claim_C8_deterministic_witness :
    sampleTable = sampleTable ∧ generate sampleTable = generate sampleTable :=
  ⟨rfl, claim_C8_deterministic sampleTable sampleTable rfl⟩

/-- Claim C9: the output is the header, then the accepted keywords rendered
as lines of single-quoted comma-terminated tokens separated by exactly one
space (by definition of `renderLine` and `joinTokens`), then the footer;
in particular every accepted keyword occurs in the output as the substring
`'text',`. -/
theorem claim_C9_quoted_tokens (table : List Candidate) :
    generate table =
      header.toList ++
        (joinLines ((specLines (acceptedKeywords table)).map renderLine) ++
          ('\n' :: footer.toList)) ∧
      ∀ w ∈ acceptedKeywords table, ∃ A B, generate table = A ++ (quoteTok w ++ B) := by
  constructor
  · exact generate_eq table
  · intro w hw
    have hjf : w ∈ (specLines (acceptedKeywords table)).flatten := by
      rw [specLines_join]; exact hw
    obtain ⟨ln, hln, hwln⟩ := List.mem_flatten.mp hjf
    obtain ⟨A1, B1, h1⟩ : ∃ A B, renderLine ln = A ++ (quoteTok w ++ B) := by
      cases ln with
      | nil => exact absurd hwln (by simp)
      | cons t ts =>
        obtain ⟨A2, B2, h2⟩ := joinTokens_mem (quoteTok w) ((t :: ts).map quoteTok)
          (List.mem_map.mpr ⟨w, hwln, rfl⟩)
        simp only [List.map_cons] at h2
        exact ⟨indent ++ A2, B2, by simp [renderLine, h2, List.append_assoc]⟩
    obtain ⟨A3, B3, h3⟩ := joinLines_mem (renderLine ln)
      ((specLines (acceptedKeywords table)).map renderLine)
      (List.mem_map.mpr ⟨ln, hln, rfl⟩)
    refine ⟨header.toList ++ (A3 ++ A1), B1 ++ (B3 ++ ('\n' :: footer.toList)), ?_⟩
    rw [generate_eq]
    simp only [specRender, h3, h1]
    simp [List.append_assoc]

theorem claim_C9_quoted_tokens_witness :
    ∃ A B, generate sampleTable = A ++ (quoteTok "int".toList ++ B) :=
  (claim_C9_quoted_tokens sampleTable).2 "int".toList (by decide)

/-- Claim C10: when the first accepted keyword already fails the wrap check
at column 0 (`len + 4 > 80`), the program prints a newline before any
keyword; since the header ends with a newline, the output then contains an
empty line between the header and the first keyword line. -/
theorem claim_C10_blank_line (table : List Candidate) (w : Tok) (ws : List Tok)
    (hacc : acceptedKeywords table = w :: ws) (hlen : wrap_at < w.length + 4) :
    header.toList.getLast? = some '\n' ∧
      ∃ B, generate table = header.toList ++ ('\n' :: (indent ++ (quoteTok w ++ B))) := by
  refine ⟨by decide, ?_⟩
  have h1 : wrapStep ([], []) w = ([[]], [w]) := by
    have hc : lineWidth ([] : Line) + w.length + 4 > wrap_at := by
      simpa [lineWidth] using hlen
    simp [wrapStep, hc]
  obtain ⟨M, hM⟩ := heavy_cur_head ws [w]
    (by rw [lineWidth_singleton, indent_length]; simp only [wrap_at] at hlen; omega)
  have hspec : specLines (w :: ws) = [] :: ([w] :: M) := by
    simp only [specLines, List.foldl_cons, h1]
    rw [wrap_fold_shift ws [[]] [w]]
    simp only [finalLines] at hM ⊢
    rw [List.append_assoc, hM]
    rfl
  rw [generate_eq, hacc]
  simp only [specRender, hspec, List.map_cons, renderLine_singleton]
  refine ⟨joinRest (M.map renderLine) ++ ('\n' :: footer.toList), ?_⟩
  simp [joinLines, joinRest, renderLine, List.append_assoc]

theorem claim_C10_blank_line_witness :
    (acceptedKeywords table77 = longWord77 :: []) ∧ wrap_at < longWord77.length + 4 ∧
      (header.toList.getLast? = some '\n' ∧
        ∃ B, generate table77 =
          header.toList ++ ('\n' :: (indent ++ (quoteTok longWord77 ++ B)))) :=
  ⟨by decide, by decide,
    claim_C10_blank_line table77 longWord77 [] (by decide) (by decide)⟩
